import Mathlib

/-!
# Verification of `pyro/infer/util.py`

A shallow embedding of the `MultiFrameTensor` accumulator and the `Dice`
operator from `pyro/infer/util.py`, together with theorems settling the
specification claims about them.

Modelling conventions:

* A tensor entry is a *dual number* `(value, grad)`: `value` is the entry's
  numeric value and `grad` its derivative with respect to one abstract
  parameter.  This models the autograd semantics the code relies on
  (`detach` zeroes the `grad` component).  Machine floats are modelled by `R`.
* A tensor is a shape together with a total function from multi-indices to
  entries; only indices below the shape are meaningful, so tensor equality is
  the extensional `tEq` (equal shapes, equal entries at valid indices).
* Python `dict`s (insertion ordered) are association lists.
* External primitives (`torch.exp` / `math.exp`, `math.log`) are parameters
  of the embedded functions, since the source consumes them as collaborators.
-/

/-!
The scalar carrier `R` is any linear ordered commutative ring: machine
floats support exactly the operations the source applies to them
(addition, multiplication, negation, order comparison), and every theorem
below holds for any such carrier; concrete witnesses use `R = ℤ`.
-/

set_option linter.unusedSectionVars false

variable {R : Type} [LinearOrderedCommRing R]

/-- A dual number: `(value, derivative)`. Models one autograd-tracked float. -/
abbrev Dual (R : Type) : Type := R × R

/-- Addition of dual numbers (entrywise). -/
def dAdd (a b : Dual R) : Dual R := (a.1 + b.1, a.2 + b.2)

/-- Multiplication of dual numbers (product rule in the second component). -/
def dMul (a b : Dual R) : Dual R := (a.1 * b.1, a.1 * b.2 + a.2 * b.1)

/-- The dual number of a constant (zero derivative). -/
def dConst (q : R) : Dual R := (q, 0)

/-- All multi-indices of a shape, in row-major (lexicographic) order. -/
def allIndices : List ℕ → List (List ℕ)
  | [] => [[]]
  | d :: ds => (List.range d).flatMap (fun i => (allIndices ds).map (fun ix => i :: ix))

/-- A tensor: a shape and a total assignment of entries to multi-indices.
Only indices that are valid for `shape` are meaningful. -/
structure Tensor (R : Type) where
  shape : List ℕ
  data : List ℕ → Dual R

/-- Extensional tensor equality: same shape and same entries at every valid
multi-index. -/
def tEq (a b : Tensor R) : Prop :=
  a.shape = b.shape ∧ ∀ ix ∈ allIndices a.shape, a.data ix = b.data ix

instance (a b : Tensor R) : Decidable (tEq a b) := by
  unfold tEq; infer_instance

/-- Extensional equality on optional tensors (`None` only equals `None`). -/
def tEqOpt : Option (Tensor R) → Option (Tensor R) → Prop
  | none, none => True
  | some a, some b => tEq a b
  | _, _ => False

instance (a b : Option (Tensor R)) : Decidable (tEqOpt a b) := by
  cases a <;> cases b <;> unfold tEqOpt <;> infer_instance

/-- Sum of every entry of a tensor (`torch.Tensor.sum()` with no axis). -/
def Tensor.sumAll (t : Tensor R) : Dual R :=
  ((allIndices t.shape).map t.data).foldl dAdd (0, 0)

/-- Right-aligned broadcast of two shapes.  Where the extents disagree and
neither is `1` torch raises; this total model keeps the left extent there
(such inputs never occur in the verified statements). -/
def bcast2 (s t : List ℕ) : List ℕ :=
  let n := max s.length t.length
  let s' := List.replicate (n - s.length) 1 ++ s
  let t' := List.replicate (n - t.length) 1 ++ t
  s'.zipWith (fun a b => if a = 1 then b else a) t'

/-- Map a multi-index of a broadcast shape back to an index of an operand of
shape `s` (drop the extra leading coordinates, clamp broadcast axes to 0). -/
def bIx (s : List ℕ) (ix : List ℕ) : List ℕ :=
  (s.zip (ix.drop (ix.length - s.length))).map (fun p => if p.1 = 1 then 0 else p.2)

/-- Broadcasting elementwise addition (`torch` `+`). -/
def tAdd (a b : Tensor R) : Tensor R :=
  ⟨bcast2 a.shape b.shape,
   fun ix => dAdd (a.data (bIx a.shape ix)) (b.data (bIx b.shape ix))⟩

/-- Broadcasting elementwise multiplication (`torch` `*`). -/
def tMul (a b : Tensor R) : Tensor R :=
  ⟨bcast2 a.shape b.shape,
   fun ix => dMul (a.data (bIx a.shape ix)) (b.data (bIx b.shape ix))⟩

/-- Python-style indexing of a shape by a (possibly negative) axis:
`shape[dim]` is `shape[len(shape)+dim]` for negative `dim`.  Out-of-range
axes (which raise in Python) read as extent `1` in this total model. -/
def shapeAt (sh : List ℕ) (dim : Int) : ℕ :=
  let j : Int := if dim < 0 then (sh.length : Int) + dim else dim
  if 0 ≤ j then sh.getD j.toNat 1 else 1

/-- `t.sum(dim, keepdim=True)` for a (possibly negative) torch axis. -/
def Tensor.sumKeep (t : Tensor R) (dim : Int) : Tensor R :=
  let j : ℕ := (if dim < 0 then (t.shape.length : Int) + dim else dim).toNat
  ⟨t.shape.set j 1,
   fun ix => ((List.range (shapeAt t.shape dim)).map
      (fun k => t.data (ix.set j k))).foldl dAdd (0, 0)⟩

/-- `t.sum(0)` (no keepdim): sum out the leading axis. -/
def Tensor.sum0 (t : Tensor R) : Tensor R :=
  ⟨t.shape.tail,
   fun ix => ((List.range (t.shape.headD 1)).map
      (fun k => t.data (k :: ix))).foldl dAdd (0, 0)⟩

/-- The `while shape and shape[0] == 1: squeeze_(0)` loop: strip every
leading axis of extent one. -/
def stripOnes : List ℕ → (List ℕ → Dual R) → Tensor R
  | 1 :: rest, f => stripOnes rest (fun ix => f (0 :: ix))
  | sh, f => ⟨sh, f⟩

/-- Strip the leading extent-one axes of a tensor. -/
def Tensor.strip (t : Tensor R) : Tensor R := stripOnes t.shape t.data

/-- Scale every entry of a tensor by a constant. -/
def Tensor.scale (t : Tensor R) (q : R) : Tensor R :=
  ⟨t.shape, fun ix => dMul (dConst q) (t.data ix)⟩

/-! ## Values: a Python number or a torch tensor -/

/-- A value flowing through the code: a plain Python number or a tensor.
The distinction matters: `pyro.distributions.util.is_identically_zero`
recognises only the number `0`, and `mask = prob > 0` is a plain `bool`
(never entering the masking branch) when `prob` is a number. -/
inductive Val (R : Type) where
  | num : R → Val R
  | ten : Tensor R → Val R

/-- `pyro.distributions.util.is_identically_zero`:
`isinstance(x, numbers.Number) and x == 0`. -/
def isIdenticallyZero : Val R → Bool
  | .num q => q = 0
  | .ten _ => false

/-- `x.detach()`: zero the derivative component of every entry.  (A plain
number carries no derivative and is returned unchanged.) -/
def Val.detach : Val R → Val R
  | .num q => .num q
  | .ten t => .ten ⟨t.shape, fun ix => ((t.data ix).1, 0)⟩

/-- `x - y` on values, as used for `log_prob - log_prob.detach()`:
subtraction of a tensor's own detached copy (entrywise, same shape). -/
def Val.subDetach : Val R → Val R
  | .num _ => .num 0
  | .ten t => .ten ⟨t.shape, fun ix => ((t.data ix).1 - (t.data ix).1, (t.data ix).2 - 0)⟩

/-- `torch_exp` from the source: exponentiate a tensor entrywise or a
number, given the external exponential primitive `qexp` on dual numbers. -/
def torchExp (qexp : Dual R → Dual R) : Val R → Val R
  | .num q => .num (qexp (dConst q)).1
  | .ten t => .ten ⟨t.shape, fun ix => qexp (t.data ix)⟩

/-- Modelled from the spec: `pyro.ops.sumproduct.sumproduct` is not under
`src/`; per the spec it is the external contraction engine "multiplying a
set of factor tensors and reducing (summing) the product down to a target
shape".  Number factors multiply into a scalar coefficient; with no tensor
factor the result is that plain number (so an empty factor list gives
weight `1`). First, the reduction of one tensor down to (at most) a target
shape: sum out surplus leading axes, then sum (keeping the axis) every axis
whose target extent is `1` while the current extent is not. -/
def reduceTo (t0 : Tensor R) (shape : List ℕ) : Tensor R :=
  let t := (List.range (t0.shape.length - shape.length)).foldl
    (fun u _ => u.sum0) t0
  let off := shape.length - t.shape.length
  (List.range t.shape.length).foldl
    (fun u j =>
      if shape.getD (off + j) 1 = 1 ∧ u.shape.getD j 1 ≠ 1 then u.sumKeep (j : Int)
      else u) t

/-- Modelled from the spec: the sum-product contraction over a list of
factors down to a target shape (see `reduceTo`). -/
def sumproduct (factors : List (Val R)) (shape : List ℕ) : Val R :=
  let coeff : R := (factors.filterMap (fun v => match v with
    | .num q => some q
    | .ten _ => none)).foldl (fun a b => a * b) 1
  let tens : List (Tensor R) := factors.filterMap (fun v => match v with
    | .num _ => none
    | .ten t => some t)
  match tens with
  | [] => .num coeff
  | t :: ts => .ten ((reduceTo (ts.foldl tMul t) shape).scale coeff)

/-! ## `MultiFrameTensor` -/

/-- A `CondIndepStackFrame`: the spec's Frame (identifier, negative axis
index, vectorized flag).  Equality is by identifier and axis, not size. -/
structure Frame where
  name : String
  dim : Int
  vectorized : Bool
deriving DecidableEq

/-- A `cond_indep_stack`: a tuple of frames. -/
abbrev Stack : Type := List Frame

/-- `frozenset(f for f in cond_indep_stack if f.vectorized)`, kept as the
deduplicated list of its elements (a concrete iteration order of the
frozenset; every use below is order-independent). -/
def keySet (stack : Stack) : List Frame := (stack.filter (fun f => f.vectorized)).dedup

/-- Set-equality of two frozenset representatives. -/
def keyBEq (a b : List Frame) : Bool :=
  a.all (fun f => b.contains f) && b.all (fun f => a.contains f)

/-- The `MultiFrameTensor` dict: insertion-ordered map from a frozenset of
frames to an accumulated tensor. -/
abbrev MFT (R : Type) : Type := List (List Frame × Tensor R)

/-- `self[frames] = self[frames] + value` or `self[frames] = value`:
if a set-equal key exists, broadcast-add onto it in place (the dict keeps
the first-inserted key and its position); else append the new entry. -/
def mftStore (m : MFT R) (frames : List Frame) (value : Tensor R) : MFT R :=
  match m with
  | [] => [(frames, value)]
  | (k, v) :: rest =>
    if keyBEq k frames then (k, tAdd v value) :: rest
    else (k, v) :: mftStore rest frames value

/-- The body of `MultiFrameTensor.add` for one `(cond_indep_stack, value)`
item.  `none` models the `assert` firing: some retained frame's axis fails
`f.dim < 0 and -len(value.shape) <= f.dim`. -/
def mftAdd1 (m : MFT R) (stack : Stack) (value : Tensor R) : Option (MFT R) :=
  let frames := keySet stack
  if frames.all (fun f => decide (f.dim < 0 ∧ -(value.shape.length : Int) ≤ f.dim)) then
    some (mftStore m frames value)
  else none

/-- `MultiFrameTensor.add(*items)`: process the items in order, failing at
the first precondition violation. -/
def mftAdd (m : MFT R) (items : List (Stack × Tensor R)) : Option (MFT R) :=
  match items with
  | [] => some m
  | (stack, value) :: rest =>
    match mftAdd1 m stack value with
    | none => none
    | some m' => mftAdd m' rest

/-- The per-entry reduction inside `MultiFrameTensor.sum_to`: for each frame
of the key, if it is not in `target_frames` and the tensor's extent on its
axis is not `1`, sum (keeping the axis); finally strip leading unit axes. -/
def sumToEntry (target : Stack) (frames : List Frame) (value : Tensor R) : Tensor R :=
  (frames.foldl
    (fun v f =>
      if f ∉ target ∧ shapeAt v.shape f.dim ≠ 1 then v.sumKeep f.dim else v)
    value).strip

/-- `MultiFrameTensor.sum_to(target_frames)`. -/
def mftSumTo (m : MFT R) (target : Stack) : Option (Tensor R) :=
  m.foldl
    (fun total p =>
      let v := sumToEntry target p.1 p.2
      match total with
      | none => some v
      | some t => some (tAdd t v))
    none

/-! ## `Dice` -/

/-- An ordinal: the canonical `frozenset` of site names, partially ordered
by inclusion. -/
abbrev Ordin : Type := Finset String

/-- The two dicts built by `Dice.__init__`, as insertion-ordered
association lists. -/
structure DiceState (R : Type) where
  log_denom : List (Ordin × R)
  log_probs : List (Ordin × List (Val R))

/-- `defaultdict(float)` update `d[k] += x`: add onto the first entry with
key `k`, else append a fresh entry (`0.0 + x`). -/
def dictAddQ (d : List (Ordin × R)) (k : Ordin) (x : R) : List (Ordin × R) :=
  match d with
  | [] => [(k, x)]
  | (k', v) :: rest => if k' = k then (k', v + x) :: rest else (k', v) :: dictAddQ rest k x

/-- `defaultdict(list)` update `d[k].append(t)`. -/
def dictAppend (d : List (Ordin × List (Val R))) (k : Ordin) (t : Val R) :
    List (Ordin × List (Val R)) :=
  match d with
  | [] => [(k, [t])]
  | (k', vs) :: rest =>
    if k' = k then (k', vs ++ [t]) :: rest else (k', vs) :: dictAppend rest k t

/-- Read a `List (Val R)`-valued dict with default `[]`. -/
def dictGetL (d : List (Ordin × List (Val R))) (k : Ordin) : List (Val R) :=
  match d with
  | [] => []
  | (k', v) :: rest => if k' = k then v else dictGetL rest k

/-- Read a `R`-valued dict with default `0`. -/
def dictGetQ (d : List (Ordin × R)) (k : Ordin) : R :=
  match d with
  | [] => 0
  | (k', v) :: rest => if k' = k then v else dictGetQ rest k

/-- A trace site, reduced to the fields `Dice.__init__` reads: the node
type, `score_parts.score_function`, `infer.get("enumerate")` and
`infer.get("_enum_total")` (`none` models an absent key). -/
structure Site (R : Type) where
  typ : String
  score_function : Val R
  enum_mode : Option String
  enum_total : Option ℕ

/-- Python truthiness of `site["infer"].get("enumerate")`: an absent key or
an empty string is falsy. -/
def enumTruthy (s : Site R) : Bool := s.enum_mode.getD "" ≠ ""

/-- One iteration of the `Dice.__init__` loop.  `none` models the
`KeyError` raised by `site["infer"]["_enum_total"]` when the key is absent.
(For a Monte-Carlo site the code computes `log_prob - log_prob.detach()`,
modelled by `Val.subDetach`.) -/
def diceStep (qlog : ℕ → R) (ordering : String → Ordin) (st : DiceState R)
    (item : String × Site R) : Option (DiceState R) :=
  let site := item.2
  if site.typ ≠ "sample" then some st
  else if isIdenticallyZero site.score_function then some st
  else
    let ordinal := ordering item.1
    if enumTruthy site then
      if site.enum_mode = some "sequential" then
        match site.enum_total with
        | none => none
        | some n =>
          some ⟨dictAddQ st.log_denom ordinal (qlog n),
                dictAppend st.log_probs ordinal site.score_function⟩
      else
        some ⟨st.log_denom, dictAppend st.log_probs ordinal site.score_function⟩
    else
      some ⟨st.log_denom, dictAppend st.log_probs ordinal site.score_function.subDetach⟩

/-- The `Dice.__init__` loop over the trace's sites. -/
def diceLoop (qlog : ℕ → R) (ordering : String → Ordin) (st : DiceState R) :
    List (String × Site R) → Option (DiceState R)
  | [] => some st
  | item :: rest =>
    match diceStep qlog ordering st item with
    | none => none
    | some st' => diceLoop qlog ordering st' rest

/-- `Dice.__init__(guide_trace, ordering)`, parameterised by the external
`math.log` primitive `qlog` (applied to `_enum_total`).  `none` models a
raised error. -/
def diceInit (qlog : ℕ → R) (trace : List (String × Site R))
    (ordering : String → Ordin) : Option (DiceState R) :=
  diceLoop qlog ordering ⟨[], []⟩ trace

/-- The identity (`id()` in CPython) of a log factor object produced by
`_get_log_factors`: the leading `-log_denom` value is a fresh float per
target ordinal, while the log-weight entries are the stored objects, shared
between all target ordinals (and kept alive by the memoization cache). -/
inductive FactorId where
  | denom : Ordin → FactorId
  | lw : Ordin → ℕ → FactorId
deriving DecidableEq

/-- The `log_denom` accumulation in `_get_log_factors`: sum the stored
denominator of every ordinal that is not `<=` the target. -/
def denomSum (st : DiceState R) (target : Ordin) : R :=
  (st.log_denom.filter (fun p => decide (¬ p.1 ⊆ target))).foldl (fun a p => a + p.2) 0

/-- `Dice._get_log_factors(target_ordinal)`, with each returned factor
tagged by its object identity.  (The memoization cache only short-circuits
recomputation of this pure function and is value-transparent.) -/
def getLogFactors (st : DiceState R) (target : Ordin) : List (FactorId × Val R) :=
  let d := denomSum st target
  let lead : List (FactorId × Val R) :=
    if d = 0 then [] else [(.denom target, .num (-d))]
  st.log_probs.foldl
    (fun acc p =>
      if p.1 ⊆ target then
        acc ++ p.2.enum.map (fun q => (FactorId.lw p.1 q.1, q.2))
      else acc)
    lead

/-- The `while shape and shape[0] == 1: shape = shape[1:]` prefix stripping
in `Dice.in_context`. -/
def stripShape : List ℕ → List ℕ
  | 1 :: rest => stripShape rest
  | sh => sh

/-- `Dice.in_context(shape, ordinal)`: exponentiate every log factor and
contract down to the (stripped) shape.  (Again the `(shape, ordinal)` cache
is value-transparent.) -/
def inContext (qexp : Dual R → Dual R) (st : DiceState R) (shape : List ℕ)
    (ordinal : Ordin) : Val R :=
  let factors := (getLogFactors st ordinal).map (fun p => torchExp qexp p.2)
  sumproduct factors (stripShape shape)

/-- The masking tail shared by both branches of `compute_expectation`:
`mask = prob > 0`; when `prob` is a tensor with some non-positive entry,
broadcast `cost`, `prob`, `mask` together, select the entries where the
mask holds, and sum the elementwise products; otherwise just
`(prob * cost).sum()`.  (When `prob` is a plain number the mask is a plain
`bool` and the masking branch is skipped.) -/
def maskedSum (prob : Val R) (cost : Tensor R) : Dual R :=
  match prob with
  | .num q => (cost.scale q).sumAll
  | .ten p =>
    if (allIndices p.shape).all (fun ix => decide (0 < (p.data ix).1)) then
      (tMul p cost).sumAll
    else
      let bsh := bcast2 cost.shape p.shape
      (((allIndices bsh).filter (fun ix => decide (0 < (p.data (bIx p.shape ix)).1))).map
        (fun ix => dMul (p.data (bIx p.shape ix)) (cost.data (bIx cost.shape ix)))).foldl
        dAdd (0, 0)

/-- The `use_einsum=True` setup pass of `compute_expectation`: walk the cost
table's ordinals in order; exponentiate each log factor whose identity was
not seen before, record the identity in `exp_table`, and append the
exponentiated factor to `factors_table[ordinal]`.  A factor whose identity
was already seen is appended to no list at all. -/
def buildFactorsTable (qexp : Dual R → Dual R) (st : DiceState R) (ordinals : List Ordin) :
    List (Ordin × List (Val R)) :=
  (ordinals.foldl
    (fun (acc : List FactorId × List (Ordin × List (Val R))) ordinal =>
      (getLogFactors st ordinal).foldl
        (fun acc2 p =>
          if p.1 ∈ acc2.1 then acc2
          else (acc2.1 ++ [p.1], dictAppend acc2.2 ordinal (torchExp qexp p.2)))
        acc)
    ([], [])).2

/-- `Dice.compute_expectation(costs, use_einsum)`.  The cost table is the
insertion-ordered dict `ordinal -> list of cost tensors`.  The
`shared_intermediates` scope only affects performance of the external
contraction engine and is dropped.  In the `use_einsum=False` branch the
code first sums each ordinal's cost list (an empty list, whose Python
`sum` is the number `0` and then raises on `.shape`, contributes nothing
here and occurs in no verified statement). -/
def computeExpectation (qexp : Dual R → Dual R) (st : DiceState R)
    (costs : List (Ordin × List (Tensor R))) (useEinsum : Bool) : Dual R :=
  if useEinsum then
    let table := buildFactorsTable qexp st (costs.map Prod.fst)
    costs.foldl
      (fun acc p =>
        let factors := dictGetL table p.1
        p.2.foldl
          (fun acc2 cost => dAdd acc2 (maskedSum (sumproduct factors cost.shape) cost))
          acc)
      (0, 0)
  else
    costs.foldl
      (fun acc p =>
        match p.2 with
        | [] => acc
        | c :: cs =>
          let cost := cs.foldl tAdd c
          dAdd acc (maskedSum (inContext qexp st cost.shape p.1) cost))
      (0, 0)

/-! ## Concrete fixtures for witnesses and counterexamples -/

/-- A concrete computable model of the external exponential primitive on
dual numbers over `ℤ`, for witnesses: its value is `1 + x`, which is `1`
exactly at `0` and is strictly monotone (like the exponential on the
inputs the witnesses use); the derivative component follows the chain rule
with the model's convention that the primitive is its own derivative. -/
def qexp0 (d : Dual ℤ) : Dual ℤ := (1 + d.1, d.2 * (1 + d.1))

/-- A scalar (0-dimensional) tensor. -/
def tenScalar (d : Dual R) : Tensor R := ⟨[], fun _ => d⟩

/-- A one-axis tensor with the given entries. -/
def tenVec (l : List (Dual R)) : Tensor R :=
  ⟨[l.length], fun ix => l.getD (ix.headD 0) (0, 0)⟩

/-! ## Specification-side definitions and claim theorems -/

/-- The factor list as the specification describes `get_log_factors`: one
leading factor, the negation of the sum of the stored log-denominators over
every ordinal not `⊆ target` (present only when that sum is nonzero),
followed by the concatenation of every stored log-weight list whose ordinal
is `⊆ target`. -/
def specLogFactors (st : DiceState R) (target : Ordin) : List (FactorId × Val R) :=
  let s : R := ((st.log_denom.filter (fun p => decide (¬ p.1 ⊆ target))).map Prod.snd).sum
  (if s = 0 then [] else [(FactorId.denom target, Val.num (-s))]) ++
    (st.log_probs.filter (fun p => decide (p.1 ⊆ target))).flatMap
      (fun p => p.2.enum.map (fun q => (FactorId.lw p.1 q.1, q.2)))

lemma foldl_add_snd (l : List (Ordin × R)) :
    ∀ c : R, l.foldl (fun a p => a + p.2) c = c + (l.map Prod.snd).sum := by
  induction l with
  | nil => intro c; simp
  | cons p l ih => intro c; simp [ih, add_assoc]

lemma foldl_filter_append {α β : Type*} (P : α → Prop) [DecidablePred P]
    (g : α → List β) (l : List α) :
    ∀ acc : List β,
      l.foldl (fun acc p => if P p then acc ++ g p else acc) acc
        = acc ++ (l.filter (fun p => decide (P p))).flatMap g := by
  induction l with
  | nil => intro acc; simp
  | cons a l ih =>
    intro acc
    by_cases h : P a
    · simp [h, ih, List.filter_cons]
    · simp [h, ih, List.filter_cons]

lemma getLogFactors_eq_spec (st : DiceState R) (target : Ordin) :
    getLogFactors st target = specLogFactors st target := by
  unfold getLogFactors specLogFactors denomSum
  rw [foldl_add_snd, foldl_filter_append (fun p : Ordin × List (Val R) => p.1 ⊆ target)]
  simp

lemma lw_mem_mono (st : DiceState R) {A B : Ordin} (hAB : A ⊆ B)
    {o : Ordin} {i : ℕ} {v : Val R}
    (h : (FactorId.lw o i, v) ∈ getLogFactors st A) :
    (FactorId.lw o i, v) ∈ getLogFactors st B := by
  rw [getLogFactors_eq_spec] at h ⊢
  unfold specLogFactors at h ⊢
  rcases List.mem_append.1 h with h1 | h2
  · split at h1 <;> simp at h1
  · obtain ⟨p, hp, hmem⟩ := List.mem_flatMap.1 h2
    obtain ⟨q, hq, heq⟩ := List.mem_map.1 hmem
    obtain ⟨hpl, hpA⟩ := List.mem_filter.1 hp
    apply List.mem_append_right
    apply List.mem_flatMap.2
    refine ⟨p, List.mem_filter.2 ⟨hpl, ?_⟩, List.mem_map.2 ⟨q, hq, heq⟩⟩
    have hsub : p.1 ⊆ A := of_decide_eq_true hpA
    exact decide_eq_true (hsub.trans hAB)

/-- C2: `Dice._get_log_factors(T)` returns exactly: one leading factor,
the negation of the sum of the stored log-denominator values over every
ordinal not upstream-of-or-equal-to `T`, included only when that sum is
nonzero; followed by the concatenation of every stored log-weight term of
every ordinal upstream-of-or-equal-to `T`. -/
theorem claim_C2_log_factors (st : DiceState R) (target : Ordin) :
    getLogFactors st target = specLogFactors st target :=
  getLogFactors_eq_spec st target

/-- C6: for ordinals `A ⊆ B`, every log-weight factor of
`_get_log_factors(A)` (each stemming from an ordinal `o ⊆ A`, as witnessed
by its identity tag) is also a factor of `_get_log_factors(B)`. -/
theorem claim_C6_upstream_monotone (st : DiceState R) (A B : Ordin) (hAB : A ⊆ B)
    (o : Ordin) (i : ℕ) (v : Val R)
    (h : (FactorId.lw o i, v) ∈ getLogFactors st A) :
    (FactorId.lw o i, v) ∈ getLogFactors st B :=
  lw_mem_mono st hAB h

/-- State used by the C6 witness. -/
def stC6 : DiceState ℤ := ⟨[], [(∅, [Val.num 7])]⟩

theorem claim_C6_witness :
    (∅ : Ordin) ⊆ {"a"} ∧ (FactorId.lw ∅ 0, Val.num (7:ℤ)) ∈ getLogFactors stC6 {"a"} := by
  refine ⟨Finset.empty_subset _, claim_C6_upstream_monotone stC6 ∅ {"a"}
    (Finset.empty_subset _) ∅ 0 (Val.num 7) ?_⟩
  rw [getLogFactors_eq_spec]
  simp [specLogFactors, stC6]

/-- A trace entry on which `Dice.__init__` must raise: a sample site with
non-identically-zero score function, sequential enumeration, and no
`_enum_total` in its infer dict. -/
def missingEnumTotal (p : String × Site R) : Prop :=
  p.2.typ = "sample" ∧ isIdenticallyZero p.2.score_function = false ∧
    p.2.enum_mode = some "sequential" ∧ p.2.enum_total = none

instance (p : String × Site R) : Decidable (missingEnumTotal p) := by
  unfold missingEnumTotal; infer_instance

lemma diceStep_missing (qlog : ℕ → R) (ordering : String → Ordin)
    (st : DiceState R) (p : String × Site R) (hp : missingEnumTotal p) :
    diceStep qlog ordering st p = none := by
  obtain ⟨h1, h2, h3, h4⟩ := hp
  simp [diceStep, h1, h2, h3, h4, enumTruthy]

lemma diceLoop_missing (qlog : ℕ → R) (ordering : String → Ordin) :
    ∀ (trace : List (String × Site R)) (st : DiceState R),
      (∃ p ∈ trace, missingEnumTotal p) → diceLoop qlog ordering st trace = none := by
  intro trace
  induction trace with
  | nil => intro st h; simp at h
  | cons a l ih =>
    intro st h
    rcases h with ⟨p, hmem, hp⟩
    rcases List.mem_cons.1 hmem with rfl | hl
    · simp [diceLoop, diceStep_missing qlog ordering st p hp]
    · unfold diceLoop
      cases hstep : diceStep qlog ordering st a with
      | none => rfl
      | some st' => exact ih st' ⟨p, hl, hp⟩

/-- C9: if the trace contains a sample site with a not-identically-zero
score-function term, `enumerate == "sequential"`, and no `_enum_total`
entry, then `Dice.__init__` raises (returns no builder). -/
theorem claim_C9_missing_enum_total (qlog : ℕ → R) (ordering : String → Ordin)
    (trace : List (String × Site R))
    (h : ∃ p ∈ trace, missingEnumTotal p) :
    diceInit qlog trace ordering = none :=
  diceLoop_missing qlog ordering trace ⟨[], []⟩ h

/-- Site used by the C9 witness. -/
def siteC9 : Site ℤ := ⟨"sample", .ten (tenScalar (1, 0)), some "sequential", none⟩

theorem claim_C9_witness :
    missingEnumTotal ("y", siteC9) ∧
      diceInit (fun _ => (0:ℤ)) [("y", siteC9)] (fun _ => ∅) = none :=
  ⟨by decide, claim_C9_missing_enum_total _ _ _ ⟨("y", siteC9), List.mem_singleton.2 rfl, by decide⟩⟩

/-- Dict lookup in a `MultiFrameTensor`: first entry whose key is set-equal
to `k`. -/
def mftGet (m : MFT R) (k : List Frame) : Option (Tensor R) :=
  match m with
  | [] => none
  | (k', v) :: rest => if keyBEq k' k then some v else mftGet rest k

/-- The precondition of `MultiFrameTensor.add` for one item, as the spec
words it: every retained (vectorized) frame's axis is negative and its
magnitude does not exceed the tensor's rank. -/
def framesOk (stack : Stack) (value : Tensor R) : Prop :=
  ∀ f ∈ keySet stack, f.dim < 0 ∧ -(value.shape.length : Int) ≤ f.dim

instance (stack : Stack) (value : Tensor R) : Decidable (framesOk stack value) := by
  unfold framesOk; infer_instance

lemma framesOk_iff_guard (stack : Stack) (value : Tensor R) :
    ((keySet stack).all
      (fun f => decide (f.dim < 0 ∧ -(value.shape.length : Int) ≤ f.dim))) = true
      ↔ framesOk stack value := by
  simp [List.all_eq_true, framesOk]

lemma keyBEq_refl (k : List Frame) : keyBEq k k = true := by
  simp [keyBEq, List.all_eq_true]

lemma mftAdd_none_iff (m : MFT R) (items : List (Stack × Tensor R)) :
    mftAdd m items = none ↔ ∃ p ∈ items, ¬ framesOk p.1 p.2 := by
  induction items generalizing m with
  | nil => simp [mftAdd]
  | cons a rest ih =>
    by_cases hg : framesOk a.1 a.2
    · have : mftAdd1 m a.1 a.2 = some (mftStore m (keySet a.1) a.2) := by
        unfold mftAdd1
        rw [if_pos ((framesOk_iff_guard a.1 a.2).2 hg)]
      simp [mftAdd, this, ih, hg]
    · have : mftAdd1 m a.1 a.2 = none := by
        unfold mftAdd1
        rw [if_neg]
        intro hc
        exact hg ((framesOk_iff_guard a.1 a.2).1 hc)
      simp [mftAdd, this]
      exact Or.inl hg

lemma mftAdd_ok (m : MFT R) (items : List (Stack × Tensor R))
    (h : ∀ p ∈ items, framesOk p.1 p.2) :
    mftAdd m items
      = some (items.foldl (fun acc p => mftStore acc (keySet p.1) p.2) m) := by
  induction items generalizing m with
  | nil => simp [mftAdd]
  | cons a rest ih =>
    have hg : mftAdd1 m a.1 a.2 = some (mftStore m (keySet a.1) a.2) := by
      unfold mftAdd1
      rw [if_pos ((framesOk_iff_guard a.1 a.2).2 (h a (List.mem_cons_self a rest)))]
    simp only [mftAdd, hg]
    exact ih (mftStore m (keySet a.1) a.2) (fun p hp => h p (List.mem_cons_of_mem a hp))

lemma mftGet_mftStore (m : MFT R) (k : List Frame) (v : Tensor R) :
    mftGet (mftStore m k v) k
      = some (match mftGet m k with | none => v | some t => tAdd t v) := by
  induction m with
  | nil => simp [mftStore, mftGet, keyBEq_refl]
  | cons a rest ih =>
    by_cases hk : keyBEq a.1 k = true
    · simp [mftStore, mftGet, hk]
    · simp [mftStore, mftGet, hk, ih]

/-- C5: `MultiFrameTensor.add` fails exactly when some item has a retained
vectorized frame whose axis does not address an existing axis of that
item's tensor; under the precondition it never fails, and each tensor is
stored under (or broadcast-added onto) the frozenset of its vectorized
frames. -/
theorem claim_C5_add_precondition (m : MFT R) (items : List (Stack × Tensor R)) :
    (mftAdd m items = none ↔ ∃ p ∈ items, ¬ framesOk p.1 p.2) ∧
    ((∀ p ∈ items, framesOk p.1 p.2) →
      mftAdd m items
        = some (items.foldl (fun acc p => mftStore acc (keySet p.1) p.2) m)) ∧
    (∀ k v, mftGet (mftStore m k v) k
      = some (match mftGet m k with | none => v | some t => tAdd t v)) :=
  ⟨mftAdd_none_iff m items, mftAdd_ok m items, fun k v => mftGet_mftStore m k v⟩

/-- Frame and tensors used by the C5 witness. -/
def fC5 : Frame := ⟨"w", -1, true⟩

/-- A bad frame (non-negative axis) for the C5 witness's failure half. -/
def fC5bad : Frame := ⟨"w", 0, true⟩

theorem claim_C5_witness :
    mftAdd ([] : MFT ℤ) [([fC5], tenVec [(1, 0), (2, 0)])]
        = some (mftStore [] (keySet [fC5]) (tenVec [(1, 0), (2, 0)])) ∧
      mftAdd ([] : MFT ℤ) [([fC5bad], tenVec [(1, 0), (2, 0)])] = none :=
  ⟨(claim_C5_add_precondition ([] : MFT ℤ) [([fC5], tenVec [(1, 0), (2, 0)])]).2.1
      (by decide),
   (claim_C5_add_precondition ([] : MFT ℤ) [([fC5bad], tenVec [(1, 0), (2, 0)])]).1.2
      ⟨([fC5bad], tenVec [(1, 0), (2, 0)]), List.mem_singleton.2 rfl, by decide⟩⟩

/-- The per-entry reduction exactly as claim C4 words it: sum along the
axis of each key frame not in the target, but only when that axis
currently has extent *greater than one*; then strip the remaining leading
extent-one axes. -/
def claimC4Entry (target : Stack) (frames : List Frame) (value : Tensor R) : Tensor R :=
  (frames.foldl
    (fun v f => if f ∉ target ∧ 1 < shapeAt v.shape f.dim then v.sumKeep f.dim else v)
    value).strip

/-- Claim C4's description of `sum_to`: apply the per-entry reduction to
every stored entry and sum the results; `None` when the accumulator has no
entries. -/
def claimC4SumTo (m : MFT R) (target : Stack) : Option (Tensor R) :=
  match m.map (fun p => claimC4Entry target p.1 p.2) with
  | [] => none
  | t :: ts => some (ts.foldl tAdd t)

/-- Claim C4 as amended: identical, except an axis is summed whenever its
extent *differs from* one (the code's `shape[f.dim] != 1` test), not only
when it exceeds one — the two differ on axes of extent zero. -/
def amendedC4Entry (target : Stack) (frames : List Frame) (value : Tensor R) : Tensor R :=
  (frames.foldl
    (fun v f => if f ∉ target ∧ shapeAt v.shape f.dim ≠ 1 then v.sumKeep f.dim else v)
    value).strip

/-- The amended claim C4, assembled like `claimC4SumTo`. -/
def amendedC4SumTo (m : MFT R) (target : Stack) : Option (Tensor R) :=
  match m.map (fun p => amendedC4Entry target p.1 p.2) with
  | [] => none
  | t :: ts => some (ts.foldl tAdd t)

/-- Accumulator holding one empty tensor (an axis of extent zero): the code
sums that axis (extent `0 != 1`), producing a scalar; the claim's
greater-than-one test would leave the empty tensor untouched. -/
def mC4 : MFT ℤ := [([⟨"i", -1, true⟩], ⟨[0], fun _ => (0, 0)⟩)]

/-- C4 counterexample: on an accumulator holding a tensor with an axis of
extent zero, `sum_to` does not return what the claim describes (the code
reduces any axis of extent `!= 1`, including extent zero; the claim reduces
only axes of extent `> 1`). -/
theorem claim_C4_counterexample : ¬ tEqOpt (mftSumTo mC4 []) (claimC4SumTo mC4 []) := by
  decide

lemma sumToEntry_eq_amended (target : Stack) (frames : List Frame) (value : Tensor R) :
    sumToEntry target frames value = amendedC4Entry target frames value := rfl

lemma mftSumTo_foldl_some (target : Stack) (m : MFT R) :
    ∀ t0 : Tensor R,
      m.foldl
        (fun total p =>
          let v := sumToEntry target p.1 p.2
          match total with
          | none => some v
          | some t => some (tAdd t v))
        (some t0)
      = some ((m.map (fun p => sumToEntry target p.1 p.2)).foldl tAdd t0) := by
  induction m with
  | nil => intro t0; rfl
  | cons p m ih => intro t0; simp only [List.foldl_cons, List.map_cons]; exact ih _

/-- C4 amended: `sum_to` reduces each stored tensor by summing along the
axis of each key frame outside the target whenever that axis's extent
differs from one, strips remaining leading unit axes, and returns the sum
of the results; it returns `None` for an accumulator with no entries. -/
theorem claim_C4_amended_sum_to (m : MFT R) (target : Stack) :
    mftSumTo m target = amendedC4SumTo m target := by
  cases m with
  | nil => rfl
  | cons p m =>
    have h1 : mftSumTo (p :: m) target
        = m.foldl
          (fun total q =>
            let v := sumToEntry target q.1 q.2
            match total with
            | none => some v
            | some t => some (tAdd t v))
          (some (sumToEntry target p.1 p.2)) := rfl
    rw [h1, mftSumTo_foldl_some]
    rfl

/-- Frame and tensor for the C7 counterexample: a tensor with a leading
axis of extent one, added under a single key. -/
def fC7 : Frame := ⟨"a", -1, true⟩

/-- The added tensor: shape `[1, 2]`. -/
def tC7 : Tensor ℤ := ⟨[1, 2], fun _ => (1, 0)⟩

/-- C7 counterexample: after adding one tensor of shape `[1, 2]` under the
single key `[fC7]`, `sum_to` with the original key does not return the
unreduced sum (the code's squeeze loop strips the leading unit axis,
returning shape `[2]`). -/
theorem claim_C7_counterexample :
    ¬ tEqOpt ((mftAdd ([] : MFT ℤ) [([fC7], tC7)]).bind (fun m => mftSumTo m [fC7]))
      (some tC7) := by
  decide

lemma keySet_mem {stack : Stack} {f : Frame} (h : f ∈ keySet stack) : f ∈ stack := by
  unfold keySet at h
  exact List.mem_of_mem_filter (List.mem_dedup.1 h)

lemma sumToEntry_key_in_target (K : Stack) (value : Tensor R) :
    sumToEntry K (keySet K) value = value.strip := by
  unfold sumToEntry
  have : ∀ (frames : List Frame), (∀ f ∈ frames, f ∈ K) → ∀ v : Tensor R,
      frames.foldl
        (fun v f => if f ∉ K ∧ shapeAt v.shape f.dim ≠ 1 then v.sumKeep f.dim else v)
        v = v := by
    intro frames
    induction frames with
    | nil => intro _ v; rfl
    | cons f frames ih =>
      intro h v
      simp only [List.foldl_cons]
      rw [if_neg (fun hc => hc.1 (h f (List.mem_cons_self f frames)))]
      exact ih (fun g hg => h g (List.mem_cons_of_mem f hg)) v
  rw [this (keySet K) (fun f hf => keySet_mem hf) value]

lemma mftAdd_single_key (K : Stack) :
    ∀ (ts : List (Tensor R)) (t0 : Tensor R) (m : MFT R),
      mftAdd [(keySet K, t0)] (ts.map (fun u => (K, u))) = some m →
      m = [(keySet K, ts.foldl tAdd t0)] := by
  intro ts
  induction ts with
  | nil =>
    intro t0 m h
    simp [mftAdd] at h
    simp [← h]
  | cons u ts ih =>
    intro t0 m h
    simp only [List.map_cons, mftAdd] at h
    cases h1 : mftAdd1 [(keySet K, t0)] K u with
    | none => rw [h1] at h; exact absurd h (by simp)
    | some m' =>
      rw [h1] at h
      have hm' : m' = [(keySet K, tAdd t0 u)] := by
        unfold mftAdd1 at h1
        by_cases hg : ((keySet K).all
            (fun f => decide (f.dim < 0 ∧ -(u.shape.length : Int) ≤ f.dim))) = true
        · rw [if_pos hg] at h1
          have := Option.some.inj h1
          rw [← this]
          simp [mftStore, keyBEq_refl]
        · rw [if_neg hg] at h1; exact absurd h1 (by simp)
      rw [hm'] at h
      simpa using ih (tAdd t0 u) m h

/-- C7 amended: when every entry was added under the single key `K`,
`sum_to(K)` applies no frame reduction and returns the sum of the added
tensors with its leading extent-one axes stripped. -/
theorem claim_C7_amended_sum_to_same_key (K : Stack) (t : Tensor R)
    (ts : List (Tensor R)) (m : MFT R)
    (h : mftAdd [] ((t :: ts).map (fun u => (K, u))) = some m) :
    mftSumTo m K = some ((ts.foldl tAdd t).strip) := by
  simp only [List.map_cons, mftAdd] at h
  cases h1 : mftAdd1 ([] : MFT R) K t with
  | none => rw [h1] at h; exact absurd h (by simp)
  | some m0 =>
    rw [h1] at h
    have hm0 : m0 = [(keySet K, t)] := by
      unfold mftAdd1 at h1
      by_cases hg : ((keySet K).all
          (fun f => decide (f.dim < 0 ∧ -(t.shape.length : Int) ≤ f.dim))) = true
      · rw [if_pos hg] at h1
        have := Option.some.inj h1
        rw [← this]; rfl
      · rw [if_neg hg] at h1; exact absurd h1 (by simp)
    rw [hm0] at h
    have hm := mftAdd_single_key K ts t m h
    rw [hm]
    show some (sumToEntry K (keySet K) (ts.foldl tAdd t)) = _
    rw [sumToEntry_key_in_target]

/-- Tensor for the C7 witness. -/
def tC7w : Tensor ℤ := ⟨[2], fun _ => (5, 0)⟩

theorem claim_C7_witness :
    mftSumTo [(keySet [fC7], tC7w)] [fC7]
      = some ((([] : List (Tensor ℤ)).foldl tAdd tC7w).strip) :=
  claim_C7_amended_sum_to_same_key [fC7] tC7w [] [(keySet [fC7], tC7w)] (by rfl)

/-- A trace entry that contributes to the builder's mappings: a sample site
whose score-function term is not identically zero. -/
def contributes (p : String × Site R) : Bool :=
  decide (p.2.typ = "sample") && !(isIdenticallyZero p.2.score_function)

/-- A contributing site in the sequential-enumeration branch. -/
def seqContrib (p : String × Site R) : Bool :=
  contributes p && decide (p.2.enum_mode = some "sequential")

/-- The term `Dice.__init__` appends for a contributing site: the raw
score-function term when an enumeration mode is set (truthy), otherwise the
Monte-Carlo surrogate `log_prob - log_prob.detach()`. -/
def diceTerm (p : String × Site R) : Val R :=
  if enumTruthy p.2 then p.2.score_function else p.2.score_function.subDetach

lemma dictGetQ_dictAddQ (d : List (Ordin × R)) (k k' : Ordin) (x : R) :
    dictGetQ (dictAddQ d k x) k' = dictGetQ d k' + if k' = k then x else 0 := by
  induction d with
  | nil =>
    simp only [dictAddQ, dictGetQ]
    by_cases h : k = k'
    · subst h; simp
    · rw [if_neg h, if_neg (fun hc => h hc.symm)]; simp
  | cons a d ih =>
    simp only [dictAddQ]
    by_cases h : a.1 = k
    · rw [if_pos h]
      simp only [dictGetQ]
      by_cases h2 : a.1 = k'
      · rw [if_pos h2, if_pos h2, if_pos (h2.symm.trans h)]
      · rw [if_neg h2, if_neg h2, if_neg (fun hc => h2 (h.trans hc.symm))]
        simp
    · rw [if_neg h]
      simp only [dictGetQ]
      by_cases h2 : a.1 = k'
      · rw [if_pos h2, if_pos h2, if_neg (fun hc => h (h2.trans hc))]
        simp
      · rw [if_neg h2, if_neg h2, ih]

lemma dictGetL_dictAppend (d : List (Ordin × List (Val R))) (k k' : Ordin) (t : Val R) :
    dictGetL (dictAppend d k t) k'
      = dictGetL d k' ++ if k' = k then [t] else [] := by
  induction d with
  | nil =>
    simp only [dictAppend, dictGetL]
    by_cases h : k = k'
    · subst h; simp
    · rw [if_neg h, if_neg (fun hc => h hc.symm)]; simp
  | cons a d ih =>
    simp only [dictAppend]
    by_cases h : a.1 = k
    · rw [if_pos h]
      simp only [dictGetL]
      by_cases h2 : a.1 = k'
      · rw [if_pos h2, if_pos h2, if_pos (h2.symm.trans h)]
      · rw [if_neg h2, if_neg h2, if_neg (fun hc => h2 (h.trans hc.symm))]
        simp
    · rw [if_neg h]
      simp only [dictGetL]
      by_cases h2 : a.1 = k'
      · rw [if_pos h2, if_pos h2, if_neg (fun hc => h (h2.trans hc))]
        simp
      · rw [if_neg h2, if_neg h2, ih]

lemma diceStep_char (qlog : ℕ → R) (ordering : String → Ordin)
    (st st1 : DiceState R) (a : String × Site R)
    (h : diceStep qlog ordering st a = some st1) :
    (∀ o, dictGetQ st1.log_denom o = dictGetQ st.log_denom o
      + (if (seqContrib a && decide (ordering a.1 = o)) then qlog (a.2.enum_total.getD 0)
         else 0))
    ∧ (∀ o, dictGetL st1.log_probs o = dictGetL st.log_probs o
      ++ (if (contributes a && decide (ordering a.1 = o)) then [diceTerm a] else [])) := by
  by_cases h1 : a.2.typ = "sample"
  case neg =>
    simp only [diceStep, if_pos h1] at h
    obtain rfl := Option.some.inj h
    constructor <;> intro o <;> simp [contributes, seqContrib, h1]
  case pos =>
  by_cases h2 : isIdenticallyZero a.2.score_function = true
  case pos =>
    simp only [diceStep, h1] at h
    simp only [h2, if_true, if_neg (not_not_intro h1), ite_not] at h
    obtain rfl := Option.some.inj h
    constructor <;> intro o <;> simp [contributes, seqContrib, h2]
  case neg =>
  rw [Bool.not_eq_true] at h2
  by_cases h3 : enumTruthy a.2 = true
  case neg =>
    rw [Bool.not_eq_true] at h3
    simp only [diceStep, h1, h2, h3] at h
    simp only [if_neg (not_not_intro h1), Bool.false_eq_true, if_false] at h
    obtain rfl := Option.some.inj h
    have hseq : a.2.enum_mode ≠ some "sequential" := by
      intro hc
      rw [enumTruthy, hc] at h3
      simp at h3
    constructor <;> intro o
    · simp [seqContrib, hseq]
    · rw [dictGetL_dictAppend]
      have hterm : diceTerm a = a.2.score_function.subDetach := by
        rw [diceTerm, if_neg]
        rw [h3]
        simp
      have hcon : contributes a = true := by simp [contributes, h1, h2]
      by_cases ho : ordering a.1 = o
      · simp [ho, hcon, hterm]
      · have ho2 : ¬o = ordering a.1 := fun hc => ho hc.symm
        simp [ho, ho2]
  case pos =>
  by_cases h4 : a.2.enum_mode = some "sequential"
  case pos =>
    cases h5 : a.2.enum_total with
    | none =>
      simp only [diceStep, h1, h2, h3, h4, h5] at h
      simp only [if_neg (not_not_intro h1), Bool.false_eq_true, if_false, if_true] at h
      cases h
    | some n =>
      simp only [diceStep, h1, h2, h3, h4, h5] at h
      simp only [if_neg (not_not_intro h1), Bool.false_eq_true, if_false, if_true] at h
      obtain rfl := Option.some.inj h
      have hcon : contributes a = true := by simp [contributes, h1, h2]
      have hseq : seqContrib a = true := by simp [seqContrib, hcon, h4]
      have hterm : diceTerm a = a.2.score_function := by rw [diceTerm, if_pos h3]
      constructor <;> intro o
      · rw [dictGetQ_dictAddQ]
        by_cases ho : ordering a.1 = o
        · simp [ho, hseq, h5]
        · have ho2 : ¬o = ordering a.1 := fun hc => ho hc.symm
          simp [ho, ho2]
      · rw [dictGetL_dictAppend]
        by_cases ho : ordering a.1 = o
        · simp [ho, hcon, hterm]
        · have ho2 : ¬o = ordering a.1 := fun hc => ho hc.symm
          simp [ho, ho2]
  case neg =>
    simp only [diceStep, h1, h2, h3, h4] at h
    simp only [if_neg (not_not_intro h1), Bool.false_eq_true, if_false, if_true] at h
    obtain rfl := Option.some.inj h
    have hcon : contributes a = true := by simp [contributes, h1, h2]
    have hseq : seqContrib a = false := by simp [seqContrib, h4]
    have hterm : diceTerm a = a.2.score_function := by rw [diceTerm, if_pos h3]
    constructor <;> intro o
    · simp [hseq]
    · rw [dictGetL_dictAppend]
      by_cases ho : ordering a.1 = o
      · simp [ho, hcon, hterm]
      · have ho2 : ¬o = ordering a.1 := fun hc => ho hc.symm
        simp [ho, ho2]

lemma diceLoop_char (qlog : ℕ → R) (ordering : String → Ordin) :
    ∀ (trace : List (String × Site R)) (st st' : DiceState R),
      diceLoop qlog ordering st trace = some st' →
      (∀ o, dictGetQ st'.log_denom o = dictGetQ st.log_denom o
        + ((trace.filter (fun p => seqContrib p && decide (ordering p.1 = o))).map
            (fun p => qlog (p.2.enum_total.getD 0))).sum)
      ∧ (∀ o, dictGetL st'.log_probs o = dictGetL st.log_probs o
        ++ (trace.filter (fun p => contributes p && decide (ordering p.1 = o))).map
            diceTerm) := by
  intro trace
  induction trace with
  | nil =>
    intro st st' h
    obtain rfl := Option.some.inj h
    simp
  | cons a l ih =>
    intro st st' h
    unfold diceLoop at h
    cases hstep : diceStep qlog ordering st a with
    | none => rw [hstep] at h; cases h
    | some st1 =>
      rw [hstep] at h
      obtain ⟨ihd, ihp⟩ := ih st1 st' h
      obtain ⟨sd, sp⟩ := diceStep_char qlog ordering st st1 a hstep
      constructor <;> intro o
      · rw [ihd o, sd o, List.filter_cons]
        by_cases hc : (seqContrib a && decide (ordering a.1 = o)) = true
        · simp [hc, add_assoc]
        · simp [hc]
      · rw [ihp o, sp o, List.filter_cons]
        by_cases hc : (contributes a && decide (ordering a.1 = o)) = true
        · simp [hc]
        · simp [hc]

/-- C3: in the builder constructed from a trace, the log-denominator bucket
of each ordinal holds the sum of `log(_enum_total)` over the
sequentially-enumerated sample sites of that ordinal whose score-function
term is not identically zero; the log-weight list of each ordinal holds,
in trace order, one term per contributing sample site of that ordinal —
the raw score-function term for enumerated sites, and the surrogate
`log_prob - log_prob.detach()` for Monte-Carlo sites; the surrogate has
entry values exactly zero with the derivative of the log-probability; and
non-sample sites and identically-zero-score sites appear in neither
mapping (the filters exclude them). -/
theorem claim_C3_init_classification (qlog : ℕ → R) (ordering : String → Ordin)
    (trace : List (String × Site R)) (st : DiceState R)
    (h : diceInit qlog trace ordering = some st) :
    (∀ o, dictGetQ st.log_denom o
        = ((trace.filter (fun p => seqContrib p && decide (ordering p.1 = o))).map
            (fun p => qlog (p.2.enum_total.getD 0))).sum)
    ∧ (∀ o, dictGetL st.log_probs o
        = (trace.filter (fun p => contributes p && decide (ordering p.1 = o))).map diceTerm)
    ∧ (∀ t : Tensor R,
        (Val.ten t).subDetach = Val.ten ⟨t.shape, fun ix => (0, (t.data ix).2)⟩) := by
  obtain ⟨hd, hp⟩ := diceLoop_char qlog ordering trace ⟨[], []⟩ st h
  refine ⟨fun o => ?_, fun o => ?_, fun t => ?_⟩
  · rw [hd o]; simp [dictGetQ]
  · rw [hp o]; simp [dictGetL]
  · unfold Val.subDetach
    refine congrArg Val.ten (congrArg (Tensor.mk t.shape) ?_)
    funext ix
    simp

/-- Fixtures for the C3 witness: one Monte-Carlo site and one sequentially
enumerated site with `_enum_total = 4`, under the external log model
`qlog n = n`. -/
def qlogC3 : ℕ → ℤ := fun n => (n : ℤ)

/-- The Monte-Carlo site of the C3 witness. -/
def siteC3m : Site ℤ := ⟨"sample", .ten (tenScalar (2, 3)), none, none⟩

/-- The sequentially enumerated site of the C3 witness. -/
def siteC3s : Site ℤ := ⟨"sample", .ten (tenScalar (1, 1)), some "sequential", some 4⟩

/-- The C3 witness trace. -/
def traceC3 : List (String × Site ℤ) := [("m", siteC3m), ("s", siteC3s)]

theorem claim_C3_witness :
    dictGetQ ((diceInit qlogC3 traceC3 (fun _ => ∅)).getD ⟨[], []⟩).log_denom ∅ = 4 := by
  have h : diceInit qlogC3 traceC3 (fun _ => ∅)
      = some ((diceInit qlogC3 traceC3 (fun _ => ∅)).getD ⟨[], []⟩) := rfl
  rw [(claim_C3_init_classification qlogC3 (fun _ => ∅) traceC3 _ h).1 ∅]
  decide

/-- C1 failing input, the site: a parallel-enumerated sample site at the
empty ordinal, so its raw log factor (value `1`, exponentiated to `2` by
the model exponential) is shared — as the same object — by the factor list
of every queried ordinal. -/
def siteC1 : Site ℤ := ⟨"sample", .ten (tenScalar (1, 0)), some "parallel", none⟩

/-- C1 failing input, the trace. -/
def traceC1 : List (String × Site ℤ) := [("x", siteC1)]

/-- C1 failing input, the cost table: unit scalar costs at two distinct
ordinals, both downstream of the site's (empty) ordinal. -/
def costsC1 : List (Ordin × List (Tensor ℤ)) :=
  [({"a"}, [tenScalar (1, 0)]), ({"b"}, [tenScalar (1, 0)])]

/-- C1: the two evaluation strategies of `compute_expectation` disagree on
this input.  In the `use_einsum=True` setup pass, a log factor whose
identity is already in `exp_table` is appended to no `factors_table` list,
so the second ordinal's factor list omits the shared factor: the einsum
path returns `2 + 1 = 3` while the direct path returns `2 + 2 = 4`. -/
theorem claim_C1_strategies_diverge :
    (diceInit (fun _ => 0) traceC1 (fun _ => ∅)).map (fun st =>
        (computeExpectation qexp0 st costsC1 true,
         computeExpectation qexp0 st costsC1 false))
      = some ((3, 0), (4, 0))
    ∧ ((3, 0) : Dual ℤ) ≠ ((4, 0) : Dual ℤ) := by
  constructor <;> decide

lemma dAdd_zero (a : Dual R) : dAdd a (0, 0) = a := by
  unfold dAdd
  simp

lemma foldl_dAdd_filter (pred : List ℕ → Bool) (f : List ℕ → Dual R) (l : List (List ℕ)) :
    ∀ acc : Dual R,
      ((l.filter pred).map f).foldl dAdd acc
        = (l.map (fun ix => if pred ix then f ix else (0, 0))).foldl dAdd acc := by
  induction l with
  | nil => intro acc; rfl
  | cons a l ih =>
    intro acc
    by_cases hp : pred a = true
    · simp only [List.filter_cons, hp, if_true, List.map_cons, List.foldl_cons]
      exact ih _
    · simp only [List.filter_cons, hp, Bool.false_eq_true, if_false, List.map_cons,
        List.foldl_cons, dAdd_zero]
      exact ih acc

/-- C8: in the masking step shared by both branches of
`compute_expectation`, whenever the realized weight is a tensor with at
least one non-positive entry, the contribution equals the sum, over the
broadcast index space, of weight times cost restricted to the strictly
positive weight entries (non-positive entries contribute the zero dual
number); consequently the cost values at non-positive-weight positions
never affect the contribution. -/
theorem claim_C8_nonpositive_masked (p cost : Tensor R)
    (h : ∃ ix ∈ allIndices p.shape, (p.data ix).1 ≤ 0) :
    maskedSum (.ten p) cost
        = ((allIndices (bcast2 cost.shape p.shape)).map
            (fun ix => if decide (0 < (p.data (bIx p.shape ix)).1)
              then dMul (p.data (bIx p.shape ix)) (cost.data (bIx cost.shape ix))
              else (0, 0))).foldl dAdd (0, 0)
    ∧ ∀ cost' : Tensor R, cost'.shape = cost.shape →
        (∀ ix ∈ allIndices (bcast2 cost.shape p.shape),
          0 < (p.data (bIx p.shape ix)).1 →
            cost'.data (bIx cost.shape ix) = cost.data (bIx cost.shape ix)) →
        maskedSum (.ten p) cost' = maskedSum (.ten p) cost := by
  have hall : (allIndices p.shape).all (fun ix => decide (0 < (p.data ix).1)) = false := by
    obtain ⟨ix, hmem, hle⟩ := h
    refine List.all_eq_false.2 ⟨ix, hmem, ?_⟩
    simp [not_lt.2 hle]
  constructor
  · simp only [maskedSum, hall, Bool.false_eq_true, if_false]
    exact foldl_dAdd_filter _ _ _ (0, 0)
  · intro cost' hsh hagree
    simp only [maskedSum, hall, Bool.false_eq_true, if_false, hsh]
    refine congrArg (fun l => List.foldl dAdd ((0 : R), (0 : R)) l) ?_
    refine List.map_congr_left ?_
    intro ix hix
    obtain ⟨hmem, hpos⟩ := List.mem_filter.1 hix
    rw [hagree ix hmem (of_decide_eq_true hpos)]

/-- Weight tensor for the C8 witness: entries `2` and `0`. -/
def pC8 : Tensor ℤ := tenVec [(2, 0), (0, 0)]

/-- Cost tensor for the C8 witness. -/
def costC8 : Tensor ℤ := tenVec [(10, 0), (100, 0)]

theorem claim_C8_witness :
    (maskedSum (.ten pC8) costC8
        = ((allIndices (bcast2 costC8.shape pC8.shape)).map
            (fun ix => if decide (0 < (pC8.data (bIx pC8.shape ix)).1)
              then dMul (pC8.data (bIx pC8.shape ix)) (costC8.data (bIx costC8.shape ix))
              else (0, 0))).foldl dAdd (0, 0))
    ∧ maskedSum (.ten pC8) costC8 = (20, 0) :=
  ⟨(claim_C8_nonpositive_masked pC8 costC8 ⟨[1], by decide, by decide⟩).1, by decide⟩

/-- C10 counterexample site: parallel-enumerated, with a score-function
term that is a tensor of value zero (not the identically-zero number, so it
is not skipped), carrying a nonzero derivative. -/
def siteC10 : Site ℤ := ⟨"sample", .ten (tenScalar (0, 5)), some "parallel", none⟩

/-- C10 counterexample: a sample site with `enumerate = "parallel"` and a
not-identically-zero score-function term whose realized weight *is*
identically one in value (the raw term has value zero everywhere), refuting
the claim's final clause. -/
theorem claim_C10_counterexample :
    siteC10.enum_mode = some "parallel"
    ∧ isIdenticallyZero siteC10.score_function = false
    ∧ (diceInit (fun _ => (0:ℤ)) [("x", siteC10)] (fun _ => ∅)).map (fun st =>
        match inContext qexp0 st [] ∅ with
        | .ten t => some (t.shape, (t.data []).1)
        | .num _ => none)
      = some (some ([], 1)) := by
  refine ⟨rfl, rfl, ?_⟩
  decide

lemma reduceTo_self (u : Tensor R) : reduceTo u u.shape = u := by
  unfold reduceTo
  simp only [Nat.sub_self, List.range_zero, List.foldl_nil]
  have key : ∀ l : List ℕ,
      l.foldl
        (fun v j =>
          if u.shape.getD (0 + j) 1 = 1 ∧ v.shape.getD j 1 ≠ 1
          then v.sumKeep (j : Int) else v)
        u = u := by
    intro l
    induction l with
    | nil => rfl
    | cons j l ih =>
      rw [List.foldl_cons, if_neg (fun hc => hc.2 ((Nat.zero_add j) ▸ hc.1))]
      exact ih
  exact key _

lemma scale_one (u : Tensor R) : u.scale 1 = u := by
  unfold Tensor.scale
  have hdata : (fun ix => dMul (dConst 1) (u.data ix)) = u.data := by
    funext ix
    simp [dMul, dConst]
  rw [hdata]

/-- C10 amended: for a sample site whose `enumerate` mode is set and is not
`"sequential"` (e.g. parallel enumeration) and whose score-function term is
a tensor, the constructor appends the *raw* score-function term (no
detach-subtraction) and adds no log-denominator entry; the realized weight
is the elementwise exponential of the raw term, so its value at an index is
one exactly when the raw term's value there is zero — it need not be
identically one (and is identically one only for a raw term of identically
zero value).  Stated for a one-site trace and a shape with no leading unit
axes; `hexp` is the defining property of the exponential model. -/
theorem claim_C10_amended_parallel_raw (qexp : Dual R → Dual R)
    (hexp : ∀ d : Dual R, (qexp d).1 = 1 ↔ d.1 = 0)
    (qlog : ℕ → R) (ordering : String → Ordin) (name : String) (site : Site R)
    (t : Tensor R) (e : String)
    (h1 : site.typ = "sample") (h2 : site.score_function = .ten t)
    (h3 : site.enum_mode = some e) (h4 : e ≠ "") (h5 : e ≠ "sequential")
    (h6 : stripShape t.shape = t.shape) :
    diceInit qlog [(name, site)] ordering
        = some ⟨[], [(ordering name, [site.score_function])]⟩
    ∧ ∃ u : Tensor R,
        inContext qexp ⟨[], [(ordering name, [site.score_function])]⟩ t.shape
            (ordering name) = .ten u
        ∧ u.shape = t.shape
        ∧ ∀ ix, (u.data ix).1 = 1 ↔ (t.data ix).1 = 0 := by
  have htr : enumTruthy site = true := by
    simp [enumTruthy, h3, h4]
  have hnseq : ¬ site.enum_mode = some "sequential" := by
    rw [h3]
    simp [h5]
  have hzero : isIdenticallyZero site.score_function = false := by
    rw [h2]
    rfl
  have hstep : diceStep qlog ordering ⟨[], []⟩ (name, site)
      = some ⟨[], [(ordering name, [site.score_function])]⟩ := by
    simp only [diceStep]
    rw [if_neg (not_not_intro h1), hzero]
    simp only [Bool.false_eq_true, if_false]
    rw [if_pos htr, if_neg hnseq]
    rfl
  constructor
  · show diceLoop qlog ordering ⟨[], []⟩ [(name, site)] = _
    unfold diceLoop
    rw [hstep]
    rfl
  · refine ⟨⟨t.shape, fun ix => qexp (t.data ix)⟩, ?_, rfl, fun ix => hexp (t.data ix)⟩
    have hfac : getLogFactors (⟨[], [(ordering name, [Val.ten t])]⟩ : DiceState R)
        (ordering name) = [(FactorId.lw (ordering name) 0, Val.ten t)] := by
      simp [getLogFactors, denomSum]
    simp only [inContext, h2, hfac, List.map_cons, List.map_nil, torchExp, h6]
    have hsp : sumproduct [Val.ten (⟨t.shape, fun ix => qexp (t.data ix)⟩ : Tensor R)] t.shape
        = Val.ten ((reduceTo (⟨t.shape, fun ix => qexp (t.data ix)⟩ : Tensor R) t.shape).scale 1) :=
      rfl
    rw [hsp,
      show reduceTo (⟨t.shape, fun ix => qexp (t.data ix)⟩ : Tensor R) t.shape
          = (⟨t.shape, fun ix => qexp (t.data ix)⟩ : Tensor R) from
        reduceTo_self _,
      scale_one]

/-- Tensor for the C10 witness: raw values `2` and `0`. -/
def tC10w : Tensor ℤ := tenVec [(2, 0), (0, 1)]

/-- Site for the C10 witness. -/
def siteC10w : Site ℤ := ⟨"sample", .ten tC10w, some "parallel", none⟩

theorem claim_C10_witness :
    diceInit (fun _ => (0:ℤ)) [("x", siteC10w)] (fun _ => ∅)
        = some ⟨[], [((∅ : Ordin), [siteC10w.score_function])]⟩
    ∧ ∃ u : Tensor ℤ,
        inContext qexp0 ⟨[], [((∅ : Ordin), [siteC10w.score_function])]⟩
            tC10w.shape (∅ : Ordin) = .ten u
        ∧ u.shape = tC10w.shape
        ∧ ∀ ix, (u.data ix).1 = 1 ↔ (tC10w.data ix).1 = 0 :=
  claim_C10_amended_parallel_raw qexp0
    (fun d => by constructor <;> intro h <;> simp [qexp0] at * <;> omega)
    (fun _ => 0) (fun _ => ∅) "x" siteC10w tC10w "parallel" rfl rfl rfl
    (by decide) (by decide) rfl
